import Mathlib

/-!
Shallow embedding of the 8-bit CPU project's Python backend
(`backend/assembler.py` and the pre-simulation part of `backend/server.py`)
into Lean 4, together with theorems settling the frozen claims about it.

Python strings are modelled as `List Char` (ASCII fragment); Python dicts
with fixed literal keys are modelled as functions into `Option`; raising
`ValueError` is modelled with `Except Str`.
-/

namespace CPU8

/-- Python `str` modelled as a list of characters. -/
abbrev Str := List Char

instance {ε α : Type} [DecidableEq ε] [DecidableEq α] : DecidableEq (Except ε α) :=
  fun x y =>
    match x, y with
    | .ok a, .ok b =>
      if h : a = b then isTrue (by rw [h])
      else isFalse (by intro hh; injection hh with h2; exact h h2)
    | .error a, .error b =>
      if h : a = b then isTrue (by rw [h])
      else isFalse (by intro hh; injection hh with h2; exact h h2)
    | .ok _, .error _ => isFalse (by intro hh; cases hh)
    | .error _, .ok _ => isFalse (by intro hh; cases hh)

/-- Characters stripped by Python `str.strip()` (ASCII whitespace:
space, tab, newline, carriage return, vertical tab, form feed). -/
def isPyWs (c : Char) : Bool :=
  c.toNat = 32 || c.toNat = 9 || c.toNat = 10 || c.toNat = 13 ||
    c.toNat = 11 || c.toNat = 12

/-- Python `str.strip()`: drop leading and trailing whitespace. -/
def pstrip (s : Str) : Str :=
  ((s.dropWhile isPyWs).reverse.dropWhile isPyWs).reverse

/-- ASCII uppercase of one character, as Python `str.upper()` does. -/
def upperChar (c : Char) : Char :=
  if 97 ≤ c.toNat ∧ c.toNat ≤ 122 then Char.ofNat (c.toNat - 32) else c

/-- ASCII lowercase of one character, as Python `str.lower()` does. -/
def lowerChar (c : Char) : Char :=
  if 65 ≤ c.toNat ∧ c.toNat ≤ 90 then Char.ofNat (c.toNat + 32) else c

/-- Python `s.upper()`. -/
def upperStr (s : Str) : Str := s.map upperChar

/-- Python `s.lower()`. -/
def lowerStr (s : Str) : Str := s.map lowerChar

/-- Decimal digit character for `n < 10`. -/
def digitChar (n : Nat) : Char := Char.ofNat (48 + n)

/-- Digit-by-digit decimal rendering; the first argument is fuel, always
sufficient when it exceeds the number of digits. -/
def natToStrAux : Nat → Nat → Str
  | 0, _ => []
  | fuel + 1, n =>
    if n < 10 then [digitChar n]
    else natToStrAux fuel (n / 10) ++ [digitChar (n % 10)]

/-- Render a natural number in decimal, as Python `str(n)`. -/
def natToStr (n : Nat) : Str := natToStrAux (n + 1) n

/-- Render an integer in decimal, as Python `str(v)`. -/
def intToStr (v : Int) : Str :=
  if v < 0 then '-' :: natToStr v.natAbs else natToStr v.natAbs

/-- Does the token list `p` occur at the head of `s`?  (Python `startswith`.) -/
def startsWith : Str → Str → Bool
  | [], _ => true
  | _ :: _, [] => false
  | p :: ps, c :: cs => p = c && startsWith ps cs

/-- Python `s.split(sep)` for a one-character separator (keeps empty pieces). -/
def splitChar (sep : Char) : Str → List Str
  | [] => [[]]
  | c :: rest =>
    match splitChar sep rest with
    | [] => [[]]
    | piece :: pieces =>
      if c = sep then [] :: piece :: pieces else (c :: piece) :: pieces

/-- Worker for `splitWs`: `cur` is the reversed current token. -/
def splitWsGo (cur : Str) : Str → List Str
  | [] => if cur = [] then [] else [cur.reverse]
  | c :: rest =>
    if isPyWs c then
      if cur = [] then splitWsGo [] rest else cur.reverse :: splitWsGo [] rest
    else splitWsGo (c :: cur) rest

/-- Python `s.split()` with no argument: maximal runs of non-whitespace. -/
def splitWs (s : Str) : List Str := splitWsGo [] s

/-- Python `s.replace('[', '').replace(']', '')`: delete all brackets. -/
def stripBrackets (s : Str) : Str :=
  s.filter (fun c => !(c = '[' || c = ']'))

/-- Python `parse_register` from `assembler.py`: uppercase the token, delete
every bracket character, and accept exactly a two-character result `R0`..`R3`;
otherwise raise (modelled as `Except.error`) citing the original token. -/
def parse_register (s : Str) : Except Str Nat :=
  let reg := stripBrackets (upperStr s)
  if startsWith ['R'] reg ∧ reg.length = 2 ∧ reg.getD 1 ' ' ∈ ['0', '1', '2', '3'] then
    .ok ((reg.getD 1 ' ').toNat - 48)
  else
    .error ("Invalid register: ".toList ++ s ++ " (use R0, R1, R2, or R3)".toList)

/-- Value of a digit character in the given base, as Python `int(_, base)`
interprets digits (0-9, then letters case-insensitively). -/
def digitVal (base : Nat) (c : Char) : Option Nat :=
  let v : Option Nat :=
    if 48 ≤ c.toNat ∧ c.toNat ≤ 57 then some (c.toNat - 48)
    else if 97 ≤ c.toNat ∧ c.toNat ≤ 122 then some (c.toNat - 87)
    else if 65 ≤ c.toNat ∧ c.toNat ≤ 90 then some (c.toNat - 55)
    else none
  match v with
  | some d => if d < base then some d else none
  | none => none

/-- Digit run with Python's underscore rule: a single `_` may appear only
between two digits.  `acc` is the value accumulated so far. -/
def digitsAux (base acc : Nat) : Str → Option Nat
  | [] => some acc
  | c :: rest =>
    if c = '_' then
      match rest with
      | [] => none
      | c2 :: rest2 =>
        match digitVal base c2 with
        | some d => digitsAux base (acc * base + d) rest2
        | none => none
    else
      match digitVal base c with
      | some d => digitsAux base (acc * base + d) rest
      | none => none

/-- Nonempty digit run that must begin with a digit (no leading underscore). -/
def digitsNoLead (base : Nat) : Str → Option Nat
  | [] => none
  | c :: rest =>
    match digitVal base c with
    | some d => digitsAux base d rest
    | none => none

/-- Digit run right after a base prefix: Python allows one underscore
directly after the prefix (`0x_ff`). -/
def digitsAfterPfx (base : Nat) : Str → Option Nat
  | [] => none
  | c :: rest => if c = '_' then digitsNoLead base rest else digitsNoLead base (c :: rest)

/-- Unsigned part of Python `int(string, base)`: optional `0x`/`0X` prefix in
base 16, optional `0b`/`0B` prefix in base 2, then digits. -/
def pyIntUnsigned (base : Nat) (s : Str) : Option Nat :=
  if base = 16 ∧ (startsWith ['0', 'x'] s ∨ startsWith ['0', 'X'] s) then
    digitsAfterPfx 16 (s.drop 2)
  else if base = 2 ∧ (startsWith ['0', 'b'] s ∨ startsWith ['0', 'B'] s) then
    digitsAfterPfx 2 (s.drop 2)
  else
    digitsNoLead base s

/-- Python `int(string, base)` on ASCII input: strip whitespace, optional
sign, optional matching base prefix, digit run; `none` models `ValueError`. -/
def pyInt (base : Nat) (s : Str) : Option Int :=
  if (pstrip s).head? = some '+' then
    (pyIntUnsigned base (pstrip s).tail).map Int.ofNat
  else if (pstrip s).head? = some '-' then
    (pyIntUnsigned base (pstrip s).tail).map (fun n => -(n : Int))
  else
    (pyIntUnsigned base (pstrip s)).map Int.ofNat

/-- The `try` block of `parse_immediate`, applied to the stripped token:
choose the base from the lowercased prefix and parse. -/
def pyParseImm (s : Str) : Option Int :=
  if startsWith ['0', 'x'] (lowerStr s) then pyInt 16 s
  else if startsWith ['0', 'b'] (lowerStr s) then pyInt 2 (s.drop 2)
  else pyInt 10 s

/-- Python `parse_immediate` from `assembler.py`: strip, parse per prefix,
reject a malformed numeral, then reject values outside `[0, 255]`. -/
def parse_immediate (s : Str) : Except Str Nat :=
  match pyParseImm (pstrip s) with
  | none => .error ("Invalid immediate value: ".toList ++ pstrip s)
  | some value =>
    if value < 0 ∨ value > 255 then
      .error ("Immediate value out of range (0-255): ".toList ++ intToStr value)
    else
      .ok value.toNat

/-- The fixed `OPCODES` dictionary of `assembler.py`. -/
def OPCODES (m : Str) : Option Nat :=
  if m = "NOP".toList then some 0
  else if m = "ADD".toList then some 1
  else if m = "SUB".toList then some 2
  else if m = "AND".toList then some 3
  else if m = "OR".toList then some 4
  else if m = "XOR".toList then some 5
  else if m = "NOT".toList then some 6
  else if m = "SHL".toList then some 7
  else if m = "SHR".toList then some 8
  else if m = "LDI".toList then some 9
  else if m = "LD".toList then some 10
  else if m = "ST".toList then some 11
  else if m = "JMP".toList then some 12
  else if m = "JZ".toList then some 13
  else if m = "HLT".toList then some 14
  else if m = "MOV".toList then some 15
  else none

/-- The instruction-format strings of the `INSTR_TYPES` dictionary. -/
inductive ITy where
  | tnone
  | treg
  | treg_reg
  | treg_imm
  | treg_regaddr
  | timm
  deriving DecidableEq

/-- The fixed `INSTR_TYPES` dictionary of `assembler.py`. -/
def INSTR_TYPES (m : Str) : Option ITy :=
  if m = "NOP".toList ∨ m = "HLT".toList then some .tnone
  else if m = "ADD".toList ∨ m = "SUB".toList ∨ m = "AND".toList ∨
      m = "OR".toList ∨ m = "XOR".toList ∨ m = "MOV".toList then some .treg_reg
  else if m = "NOT".toList ∨ m = "SHL".toList ∨ m = "SHR".toList then some .treg
  else if m = "LDI".toList then some .treg_imm
  else if m = "LD".toList ∨ m = "ST".toList then some .treg_regaddr
  else if m = "JMP".toList ∨ m = "JZ".toList then some .timm
  else none

/-- The encoding line of `parse_line`:
`(opcode << 12) | (rd << 10) | (rs << 8) | (imm & 0xFF)`. -/
def encodeWord (opcode rd rs imm : Nat) : Nat :=
  (opcode <<< 12) ||| (rd <<< 10) ||| (rs <<< 8) ||| (imm &&& 0xFF)

/-- Python `line.replace(',', ' ')`. -/
def commasToSpaces (s : Str) : Str :=
  s.map (fun c => if c = ',' then ' ' else c)

/-- The body of `parse_line` after tokenization: dispatch on the mnemonic's
format, check the minimum operand count, parse operands, encode.  Extra
tokens beyond the required ones are not inspected. -/
def parseParts (parts : List Str) : Except Str Nat :=
  match parts with
  | [] => .error "Empty instruction".toList
  | p0 :: rest =>
    match OPCODES (upperStr p0) with
    | none => .error ("Unknown instruction: ".toList ++ upperStr p0)
    | some opcode =>
      match INSTR_TYPES (upperStr p0) with
      | none => .error ("Unknown instruction type for ".toList ++ upperStr p0)
      | some ty =>
        match ty with
        | .tnone => .ok (encodeWord opcode 0 0 0)
        | .treg =>
          match rest with
          | [] => .error (upperStr p0 ++ " requires a register".toList)
          | a :: _ =>
            match parse_register a with
            | .ok rd => .ok (encodeWord opcode rd 0 0)
            | .error e => .error e
        | .treg_reg =>
          match rest with
          | a :: b :: _ =>
            match parse_register a with
            | .ok rd =>
              match parse_register b with
              | .ok rs => .ok (encodeWord opcode rd rs 0)
              | .error e => .error e
            | .error e => .error e
          | _ => .error (upperStr p0 ++ " requires two registers (Rd, Rs)".toList)
        | .treg_imm =>
          match rest with
          | a :: b :: _ =>
            match parse_register a with
            | .ok rd =>
              match parse_immediate b with
              | .ok imm => .ok (encodeWord opcode rd 0 imm)
              | .error e => .error e
            | .error e => .error e
          | _ => .error (upperStr p0 ++ " requires register and immediate (Rd, value)".toList)
        | .treg_regaddr =>
          match rest with
          | a :: b :: _ =>
            match parse_register a with
            | .ok rd =>
              match parse_register (stripBrackets b) with
              | .ok rs => .ok (encodeWord opcode rd rs 0)
              | .error e => .error e
            | .error e => .error e
          | _ => .error (upperStr p0 ++
              " requires register and address register (Rd, [Rs] or Rd, Rs)".toList)
        | .timm =>
          match rest with
          | [] => .error (upperStr p0 ++ " requires an address".toList)
          | a :: _ =>
            match parse_immediate a with
            | .ok imm => .ok (encodeWord opcode 0 0 imm)
            | .error e => .error e

/-- Python `parse_line` from `assembler.py`: split on whitespace and commas,
then parse and encode.  The `line_num` argument is accepted and unused,
exactly as in the source. -/
def parse_line (line : Str) (_line_num : Nat) : Except Str Nat :=
  parseParts (splitWs (commasToSpaces line))

/-- One line's comment stripping and trimming in `assemble`: strip, cut at
the first `;`, strip again. -/
def processedLine (l : Str) : Str :=
  let l1 := pstrip l
  if ';' ∈ l1 then pstrip (l1.takeWhile (fun c => c ≠ ';')) else l1

/-- Result record of `assemble`. -/
structure AsmResult where
  success : Bool
  program : List Nat
  errors : List Str
  deriving DecidableEq

/-- The loop of `assemble`, carrying the 1-based number of the current line. -/
def assembleGo (lineNum : Nat) : List Str → List Nat × List Str
  | [] => ([], [])
  | l :: rest =>
    let (p, e) := assembleGo (lineNum + 1) rest
    let line := processedLine l
    if line = [] then (p, e)
    else
      match parse_line line lineNum with
      | .ok w => (w :: p, e)
      | .error msg => (p, ("Line ".toList ++ natToStr lineNum ++ ": ".toList ++ msg) :: e)

/-- Python `assemble` from `assembler.py`. -/
def assemble (text : Str) : AsmResult :=
  let (program, errors) := assembleGo 1 (splitChar '\n' text)
  { success := errors.isEmpty, program := program, errors := errors }

/-- Uppercase hexadecimal digit character of `n < 16`. -/
def hexDigitChar (n : Nat) : Char :=
  if n < 10 then Char.ofNat (48 + n) else Char.ofNat (55 + n)

/-- Digit-by-digit uppercase hexadecimal rendering; the first argument is
fuel, always sufficient when it exceeds the number of digits. -/
def natToHexAux : Nat → Nat → Str
  | 0, _ => []
  | fuel + 1, n =>
    if n < 16 then [hexDigitChar n]
    else natToHexAux fuel (n / 16) ++ [hexDigitChar (n % 16)]

/-- Uppercase hexadecimal rendering of a natural number (no padding). -/
def natToHexU (n : Nat) : Str := natToHexAux (n + 1) n

/-- Python `f"{n:04X}"`: uppercase hex, zero-padded on the left to width 4. -/
def fmt04X (n : Nat) : Str :=
  let h := natToHexU n
  List.replicate (4 - h.length) '0' ++ h

/-- The padding loop of `to_hex_file`: append `"0000"` lines while there are
fewer than 8. -/
def padGo : Nat → List Str → List Str
  | 0, lines => lines
  | fuel + 1, lines =>
    if lines.length < 8 then padGo fuel (lines ++ ["0000".toList]) else lines

/-- Pad with `"0000"` lines to a minimum of 8 lines, as the `while` loop of
`to_hex_file` does; the loop body runs at most 8 times, so fuel 8 realizes
the `while` loop exactly. -/
def padTo8 (lines : List Str) : List Str := padGo 8 lines

/-- Join lines with `'\n'`, as Python `'\n'.join(lines)`. -/
def joinNl : List Str → Str
  | [] => []
  | [l] => l
  | l :: rest => l ++ '\n' :: joinNl rest

/-- Python `to_hex_file` from `assembler.py`. -/
def to_hex_file (program : List Nat) : Str :=
  joinNl (padTo8 (program.map fmt04X))

/-- The diagnostic-prefix test of `run_simulation`:
`line.startswith('WARNING:') or line.startswith('ERROR:')`. -/
def isDiag (l : Str) : Bool :=
  startsWith "WARNING:".toList l || startsWith "ERROR:".toList l

/-- The trace-extraction loop of `run_simulation` in `server.py`, carrying
the `in_json` flag; returns the buffered `json_lines`. -/
def extractGo (inJson : Bool) : List Str → List Str
  | [] => []
  | l :: rest =>
    let line := pstrip l
    if line = [] then extractGo inJson rest
    else if isDiag line then
      extractGo inJson rest
    else if line = ['['] then
      line :: extractGo true rest
    else if inJson then
      line :: (if line = [']'] then [] else extractGo true rest)
    else
      extractGo inJson rest

/-- The `json_lines` that `run_simulation` extracts from the raw simulator
output before joining and JSON-parsing them. -/
def extractTrace (output : Str) : List Str :=
  extractGo false (splitChar '\n' output)

/-- Outcome of the pre-simulation checks of the `/simulate` endpoint. -/
inductive SimGate where
  | assemblyFailed (error : Str)
  | noInstructions
  | runSim (hexProgram : Str)
  deriving DecidableEq

/-- The pre-simulation control flow of `simulate` in `server.py`: reject on
assembly errors, then reject an empty program with "No instructions in
program", and only otherwise build the hex image and run the simulation. -/
def simulateGate (assembly : Str) : SimGate :=
  if !(assemble assembly).success then
    .assemblyFailed ("Assembly errors:\n".toList ++ joinNl (assemble assembly).errors)
  else if (assemble assembly).program = [] then
    .noInstructions
  else
    .runSim (to_hex_file (assemble assembly).program)

/-- The `programHex` field of a successful `/simulate` response:
`hex_program.split('\n')` where `hex_program = to_hex_file(program)`. -/
def programHex (program : List Nat) : List Str :=
  splitChar '\n' (to_hex_file program)

/-- Acceptance predicate written from the spec's words for `parse_register`:
the token is, case-insensitively, exactly `Rn` or `[Rn]` with `n ∈ {0,1,2,3}`.
Used only to compare the spec's claim with the code's behaviour. -/
def specRegisterForm (t : Str) : Prop :=
  ∃ n < 4, upperStr t = ['R', digitChar n] ∨ upperStr t = ['[', 'R', digitChar n, ']']

instance (t : Str) : Decidable (specRegisterForm t) := by
  unfold specRegisterForm; infer_instance

/-- Number of operand tokens each instruction format requires. -/
def requiredCount : ITy → Nat
  | .tnone => 0
  | .treg => 1
  | .treg_reg => 2
  | .treg_imm => 2
  | .treg_regaddr => 2
  | .timm => 1

/-- The operand-pattern part of the too-few-operands error message of
`parse_line`, per instruction format. -/
def requiresMsg : ITy → Str
  | .tnone => []
  | .treg => " requires a register".toList
  | .treg_reg => " requires two registers (Rd, Rs)".toList
  | .treg_imm => " requires register and immediate (Rd, value)".toList
  | .treg_regaddr => " requires register and address register (Rd, [Rs] or Rd, Rs)".toList
  | .timm => " requires an address".toList

/-- Numeric value of a digit or letter character (`0`-`9`, `A`-`Z`, `a`-`z`). -/
def hexVal (c : Char) : Nat :=
  if c.toNat ≤ 57 then c.toNat - 48
  else if c.toNat ≤ 90 then c.toNat - 55
  else c.toNat - 87

/-- Horner evaluation of a digit string in the given base. -/
def valOfDigits (base : Nat) (ds : Str) : Nat :=
  ds.foldl (fun a c => a * base + hexVal c) 0

/-- Decimal digit character test. -/
def isDigitB (c : Char) : Bool := 48 ≤ c.toNat && c.toNat ≤ 57

/-- Hexadecimal digit character test (both letter cases). -/
def isHexDigitB (c : Char) : Bool :=
  (48 ≤ c.toNat && c.toNat ≤ 57) || (97 ≤ c.toNat && c.toNat ≤ 102) ||
    (65 ≤ c.toNat && c.toNat ≤ 70)

/-- Binary digit character test. -/
def isBinDigitB (c : Char) : Bool := c = '0' || c = '1'

/-- Uppercase hexadecimal digit character test (`0`-`9`, `A`-`F`). -/
def isUpHexDigit (c : Char) : Bool :=
  (48 ≤ c.toNat && c.toNat ≤ 57) || (65 ≤ c.toNat && c.toNat ≤ 70)

/-- Line filter of the trace extractor: keep a (stripped) line unless it is
blank or starts with a recognized diagnostic prefix. -/
def keepLine (l : Str) : Bool :=
  !l.isEmpty && !(isDiag l)

/-- Take elements up to and including the first line that is exactly `]`. -/
def takeThru : List Str → List Str
  | [] => []
  | l :: rest => l :: (if l = [']'] then [] else takeThru rest)

/-! Theorems about the embedded definitions. -/

theorem and255_eq (m : Nat) : m &&& 0xFF = m % 256 := by
  have h : (0xFF : Nat) = 2 ^ 8 - 1 := by norm_num
  rw [h, Nat.and_pow_two_sub_one_eq_mod]

theorem encodeWord_eq_sum (opcode rd rs imm : Nat) (h2 : rd < 4) (h3 : rs < 4) :
    encodeWord opcode rd rs imm = 4096 * opcode + 1024 * rd + 256 * rs + imm % 256 := by
  have p8 : (2 : Nat) ^ 8 = 256 := by norm_num
  have p10 : (2 : Nat) ^ 10 = 1024 := by norm_num
  have p12 : (2 : Nat) ^ 12 = 4096 := by norm_num
  have hm : imm % 256 < 256 := Nat.mod_lt _ (by omega)
  unfold encodeWord
  rw [and255_eq, Nat.shiftLeft_eq, Nat.shiftLeft_eq, Nat.shiftLeft_eq,
    Nat.lor_assoc, Nat.lor_assoc,
    Nat.mul_comm opcode, Nat.mul_comm rd, Nat.mul_comm rs]
  rw [← Nat.mul_add_lt_is_or (b := imm % 256) (by rw [p8]; omega) rs]
  rw [← Nat.mul_add_lt_is_or (b := 2 ^ 8 * rs + imm % 256) (by rw [p8, p10]; omega) rd]
  rw [← Nat.mul_add_lt_is_or (b := 2 ^ 10 * rd + (2 ^ 8 * rs + imm % 256))
    (by rw [p8, p10, p12]; omega) opcode]
  rw [p8, p10, p12]
  ring

/-- C1: for every opcode in 0..15, rd, rs in 0..3 and imm in 0..255, the code
word `(opcode<<12) | (rd<<10) | (rs<<8) | (imm & 0xFF)` decodes back to the
original fields (top 4 bits, bits 11-10, bits 9-8, low 8 bits), and
conversely every 16-bit word is the encoding of its decoded fields, so the
encoding is a bijection between in-range instructions and 16-bit code
words. -/
theorem C1_encoding_bijection :
    (∀ opcode rd rs imm, opcode < 16 → rd < 4 → rs < 4 → imm < 256 →
      encodeWord opcode rd rs imm >>> 12 = opcode ∧
      (encodeWord opcode rd rs imm >>> 10) % 4 = rd ∧
      (encodeWord opcode rd rs imm >>> 8) % 4 = rs ∧
      encodeWord opcode rd rs imm % 256 = imm) ∧
    (∀ w, w < 65536 →
      encodeWord (w >>> 12) ((w >>> 10) % 4) ((w >>> 8) % 4) (w % 256) = w) := by
  constructor
  · intro opcode rd rs imm h1 h2 h3 h4
    rw [encodeWord_eq_sum opcode rd rs imm h2 h3]
    simp only [Nat.shiftRight_eq_div_pow]
    norm_num
    omega
  · intro w hw
    have b1 : (w >>> 10) % 4 < 4 := Nat.mod_lt _ (by omega)
    have b2 : (w >>> 8) % 4 < 4 := Nat.mod_lt _ (by omega)
    rw [encodeWord_eq_sum _ _ _ _ b1 b2]
    simp only [Nat.shiftRight_eq_div_pow]
    norm_num
    omega

/-- Witness for C1 at opcode 9 (`LDI`), rd 1, rs 0, imm 3, and at the code
word 0x9403. -/
theorem C1_encoding_bijection_witness :
    (encodeWord 9 1 0 3 >>> 12 = 9 ∧ (encodeWord 9 1 0 3 >>> 10) % 4 = 1 ∧
      (encodeWord 9 1 0 3 >>> 8) % 4 = 0 ∧ encodeWord 9 1 0 3 % 256 = 3) ∧
    encodeWord (37891 >>> 12) ((37891 >>> 10) % 4) ((37891 >>> 8) % 4) (37891 % 256) = 37891 :=
  ⟨C1_encoding_bijection.1 9 1 0 3 (by decide) (by decide) (by decide) (by decide),
   C1_encoding_bijection.2 37891 (by decide)⟩

theorem assembleGo_eq (i : Nat) (ls : List Str) :
    assembleGo i ls =
      ((List.enumFrom i ls).filterMap (fun p =>
          if processedLine p.2 = [] then none
          else match parse_line (processedLine p.2) p.1 with
            | .ok w => some w
            | .error _ => none),
       (List.enumFrom i ls).filterMap (fun p =>
          if processedLine p.2 = [] then none
          else match parse_line (processedLine p.2) p.1 with
            | .ok _ => none
            | .error msg => some ("Line ".toList ++ natToStr p.1 ++ ": ".toList ++ msg))) := by
  induction ls generalizing i with
  | nil => simp [assembleGo, List.enumFrom]
  | cons l rest ih =>
    simp only [assembleGo, ih, List.enumFrom, List.filterMap_cons]
    by_cases h : processedLine l = []
    · simp [h]
    · cases hp : parse_line (processedLine l) i <;> simp [h, hp]

/-- C2: `assemble` never stops at the first failing line: its program is
exactly the code words of the valid lines in source order, and its error
list has exactly one entry per failing line, tagged with that line's 1-based
number, each line being processed independently of the others.  In
particular a source with errors on lines 2 and 5 and valid instructions
elsewhere yields exactly those two tagged errors plus the four valid code
words in order. -/
theorem C2_collect_all :
    (∀ text : Str,
      (assemble text).program = (List.enumFrom 1 (splitChar '\n' text)).filterMap (fun p =>
        if processedLine p.2 = [] then none
        else match parse_line (processedLine p.2) p.1 with
          | .ok w => some w
          | .error _ => none) ∧
      (assemble text).errors = (List.enumFrom 1 (splitChar '\n' text)).filterMap (fun p =>
        if processedLine p.2 = [] then none
        else match parse_line (processedLine p.2) p.1 with
          | .ok _ => none
          | .error msg => some ("Line ".toList ++ natToStr p.1 ++ ": ".toList ++ msg))) ∧
    assemble "HLT\nFOO\nNOP\nADD R0 R1\nLDI R0, 999\nSUB R2, R3".toList =
      ⟨false, [0xE000, 0x0000, 0x1100, 0x2B00],
        ["Line 2: Unknown instruction: FOO".toList,
         "Line 5: Immediate value out of range (0-255): 999".toList]⟩ := by
  refine ⟨fun text => ?_, by decide⟩
  simp [assemble, assembleGo_eq]

/-- C3 counterexample: the end-to-end scenario's source assembles with zero
errors, but its program is not the claimed word sequence: the second word of
`LDI R1, 3` is 0x9403 (rd = 1 sits in bits 11-10), not 0x9103. -/
theorem C3_counterexample :
    (assemble "LDI R0, 5\nLDI R1, 3\nADD R0, R1\nHLT".toList).errors = [] ∧
    (assemble "LDI R0, 5\nLDI R1, 3\nADD R0, R1\nHLT".toList).program ≠
      [0x9005, 0x9103, 0x1100, 0xE000] := by decide

/-- C3 (amended): the source `"LDI R0, 5\nLDI R1, 3\nADD R0, R1\nHLT"`
assembles with zero errors to the code words
`[0x9005, 0x9403, 0x1100, 0xE000]`. -/
theorem C3_scenario1 :
    assemble "LDI R0, 5\nLDI R1, 3\nADD R0, R1\nHLT".toList =
      ⟨true, [0x9005, 0x9403, 0x1100, 0xE000], []⟩ := by decide

theorem extractGo_true (ls : List Str) :
    extractGo true ls = takeThru ((ls.map pstrip).filter keepLine) := by
  induction ls with
  | nil => simp [extractGo, takeThru]
  | cons l rest ih =>
    by_cases h0 : pstrip l = []
    · simp [extractGo, List.filter_cons, h0, keepLine, ih]
    · by_cases h1 : isDiag (pstrip l) = true
      · have hk : keepLine (pstrip l) = false := by simp [keepLine, h1]
        simp [extractGo, List.filter_cons, h0, h1, hk, ih]
      · rw [Bool.not_eq_true] at h1
        have hk : keepLine (pstrip l) = true := by simp [keepLine, h0, h1]
        by_cases h2 : pstrip l = ['[']
        · simp [extractGo, List.filter_cons, h0, h1, hk, h2, takeThru, ih,
            (by decide : isDiag ['['] = false)]
        · by_cases h3 : pstrip l = [']']
          · simp [extractGo, List.filter_cons, h0, h1, hk, h2, h3, takeThru,
              (by decide : isDiag [']'] = false)]
          · simp [extractGo, List.filter_cons, h0, h1, hk, h2, h3, takeThru, ih]

theorem extractGo_false (ls : List Str) :
    extractGo false ls =
      takeThru (((ls.map pstrip).filter keepLine).dropWhile (fun l => l ≠ ['['])) := by
  induction ls with
  | nil => simp [extractGo, takeThru]
  | cons l rest ih =>
    by_cases h0 : pstrip l = []
    · simp [extractGo, List.filter_cons, h0, keepLine, ih]
    · by_cases h1 : isDiag (pstrip l) = true
      · have hk : keepLine (pstrip l) = false := by simp [keepLine, h1]
        simp [extractGo, List.filter_cons, h0, h1, hk, ih]
      · rw [Bool.not_eq_true] at h1
        have hk : keepLine (pstrip l) = true := by simp [keepLine, h0, h1]
        by_cases h2 : pstrip l = ['[']
        · simp [extractGo, List.filter_cons, List.dropWhile_cons, h0, h1, hk, h2,
            takeThru, extractGo_true, (by decide : isDiag ['['] = false)]
        · simp [extractGo, List.filter_cons, List.dropWhile_cons, h0, h1, hk, h2, ih]

/-- C4 counterexample: inside the bracket-delimited block, a line beginning
with "WARNING:" is NOT buffered — the blank/diagnostic filter runs before
the in-block test, so it skips such lines everywhere, not only before the
opening delimiter. -/
theorem C4_counterexample :
    extractTrace "[\nWARNING: x\n]".toList = [['['], [']']] ∧
    "WARNING: x".toList ∉ extractTrace "[\nWARNING: x\n]".toList := by decide

/-- C4 (amended): the extractor strips each line and applies the blank- and
diagnostic-prefix filter to every line, before and after the opening
delimiter alike; among the surviving lines, everything before the first `[`
line is dropped and lines are then buffered up to and including the first
`]` line. -/
theorem C4_trace_extraction (out : Str) :
    extractTrace out =
      takeThru ((((splitChar '\n' out).map pstrip).filter keepLine).dropWhile
        (fun l => l ≠ ['['])) :=
  extractGo_false (splitChar '\n' out)

theorem parse_register_ok_iff (s : Str) (n : Nat) :
    parse_register s = .ok n ↔
      n < 4 ∧ stripBrackets (upperStr s) = ['R', digitChar n] := by
  simp only [parse_register]
  generalize stripBrackets (upperStr s) = reg
  rcases reg with _ | ⟨a, _ | ⟨b, _ | ⟨c, t⟩⟩⟩
  · rw [if_neg (by simp [startsWith])]
    simp
  · rw [if_neg (by simp)]
    simp
  · by_cases ha : a = 'R'
    · subst ha
      by_cases hb : b = '0' ∨ b = '1' ∨ b = '2' ∨ b = '3'
      · rcases hb with rfl | rfl | rfl | rfl <;>
        · rw [if_pos (by exact ⟨by decide, by decide, by decide⟩)]
          constructor
          · intro h
            injection h with h'
            subst h'
            exact ⟨by decide, by decide⟩
          · rintro ⟨hn, he⟩
            interval_cases n <;> first | decide | exact absurd he (by decide)
      · rw [if_neg (fun hc => hb (by simpa using hc.2.2))]
        constructor
        · intro h
          cases h
        · rintro ⟨hn, he⟩
          exfalso
          apply hb
          have h2 : b = digitChar n := by simpa using he
          rw [h2]
          interval_cases n <;> decide
    · rw [if_neg (fun hc => ha (by
        have := hc.1
        simp [startsWith] at this
        exact this.symm))]
      constructor
      · intro h
        cases h
      · rintro ⟨hn, he⟩
        exact absurd ((List.cons.injEq _ _ _ _).mp he).1 ha
  · rw [if_neg (by simp)]
    simp

theorem parse_register_error (s e : Str) (h : parse_register s = .error e) :
    e = "Invalid register: ".toList ++ s ++ " (use R0, R1, R2, or R3)".toList := by
  simp only [parse_register] at h
  split at h
  · cases h
  · injection h with h'
    exact h'.symm

/-- C5 counterexample: the token "[R1" is neither of the forms "Rn" nor
"[Rn]" (even case-insensitively), yet `parse_register` accepts it and
returns 1, because bracket deletion is position-blind. -/
theorem C5_counterexample :
    parse_register "[R1".toList = .ok 1 ∧ ¬ specRegisterForm "[R1".toList := by
  exact ⟨by decide, by decide⟩

/-- C5 (amended): `parse_register` accepts exactly the tokens whose
uppercased form, after deleting every '[' and ']' character wherever it
occurs, is `Rn` with n in {0,1,2,3} — this includes "Rn" and "[Rn]"
case-insensitively but also tokens with unbalanced or oddly placed brackets
— returning n; every other token fails with an OperandError citing the
offending token verbatim.  R3 is accepted; R4 is rejected. -/
theorem C5_register_acceptance :
    (∀ s n, parse_register s = .ok n ↔
      n < 4 ∧ stripBrackets (upperStr s) = ['R', digitChar n]) ∧
    (∀ s e, parse_register s = .error e → ∃ a b, e = a ++ s ++ b) ∧
    parse_register "R3".toList = .ok 3 ∧
    parse_register "R4".toList =
      .error "Invalid register: R4 (use R0, R1, R2, or R3)".toList := by
  refine ⟨parse_register_ok_iff,
    fun s e h => ⟨"Invalid register: ".toList, " (use R0, R1, R2, or R3)".toList,
      parse_register_error s e h⟩,
    by decide, by decide⟩

/-- Witness for C5 at the lowercase token "r2". -/
theorem C5_register_acceptance_witness :
    parse_register "r2".toList = .ok 2 :=
  (C5_register_acceptance.1 "r2".toList 2).mpr (by decide)

theorem digitVal_underscore (base : Nat) : digitVal base '_' = none := by
  have h : ('_' : Char).toNat = 95 := rfl
  simp [digitVal, h]

theorem digitVal_of_digit {c : Char} (h : isDigitB c = true) :
    digitVal 10 c = some (hexVal c) ∧ hexVal c < 10 := by
  simp only [isDigitB, Bool.and_eq_true, decide_eq_true_eq] at h
  obtain ⟨h1, h2⟩ := h
  unfold digitVal hexVal
  rw [if_pos ⟨h1, h2⟩, if_pos h2]
  simp only []
  rw [if_pos (by omega)]
  exact ⟨rfl, by omega⟩

theorem digitVal_of_hex {c : Char} (h : isHexDigitB c = true) :
    digitVal 16 c = some (hexVal c) ∧ hexVal c < 16 := by
  simp only [isHexDigitB, Bool.or_eq_true, Bool.and_eq_true, decide_eq_true_eq] at h
  unfold digitVal hexVal
  rcases h with (⟨h1, h2⟩ | ⟨h1, h2⟩) | ⟨h1, h2⟩
  · rw [if_pos ⟨h1, h2⟩, if_pos h2]
    simp only []
    rw [if_pos (by omega)]
    exact ⟨rfl, by omega⟩
  · rw [if_neg (by omega), if_pos ⟨by omega, by omega⟩, if_neg (by omega), if_neg (by omega)]
    simp only []
    rw [if_pos (by omega)]
    exact ⟨rfl, by omega⟩
  · rw [if_neg (by omega), if_neg (by omega), if_pos (⟨h1, by omega⟩ :
      65 ≤ c.toNat ∧ c.toNat ≤ 90), if_neg (by omega), if_pos (by omega)]
    simp only []
    rw [if_pos (by omega)]
    exact ⟨rfl, by omega⟩

theorem digitVal_of_bin {c : Char} (h : isBinDigitB c = true) :
    digitVal 2 c = some (hexVal c) ∧ hexVal c < 2 := by
  simp only [isBinDigitB, Bool.or_eq_true, decide_eq_true_eq] at h
  rcases h with rfl | rfl <;> exact ⟨by decide, by decide⟩

theorem digitsAux_eq (base : Nat) (ds : Str)
    (hd : ∀ c ∈ ds, digitVal base c = some (hexVal c)) (acc : Nat) :
    digitsAux base acc ds = some (ds.foldl (fun a c => a * base + hexVal c) acc) := by
  induction ds generalizing acc with
  | nil => simp [digitsAux]
  | cons c rest ih =>
    have hc : digitVal base c = some (hexVal c) := hd c (by simp)
    have hne : ¬(c = '_') := by
      intro h
      rw [h, digitVal_underscore] at hc
      cases hc
    cases rest with
    | nil =>
      simp only [digitsAux]
      rw [if_neg hne, hc]
      simp [digitsAux]
    | cons c2 rest2 =>
      simp only [digitsAux]
      rw [if_neg hne, hc]
      exact ih (fun x hx => hd x (by simp [hx])) (acc * base + hexVal c)

theorem digitsNoLead_eq (base : Nat) (ds : Str) (hne : ds ≠ [])
    (hd : ∀ c ∈ ds, digitVal base c = some (hexVal c)) :
    digitsNoLead base ds = some (valOfDigits base ds) := by
  cases ds with
  | nil => exact absurd rfl hne
  | cons c rest =>
    simp only [digitsNoLead]
    rw [hd c (by simp)]
    show digitsAux base (hexVal c) rest = some (valOfDigits base (c :: rest))
    rw [digitsAux_eq base rest (fun x hx => hd x (by simp [hx])) (hexVal c)]
    simp [valOfDigits]

theorem dropWhile_id {α : Type} {p : α → Bool} {l : List α}
    (h : ∀ c ∈ l, p c = false) : l.dropWhile p = l := by
  cases l with
  | nil => rfl
  | cons a t => rw [List.dropWhile_cons, if_neg (by simp [h a (by simp)])]

theorem pstrip_of_no_ws {ds : Str} (h : ∀ c ∈ ds, isPyWs c = false) : pstrip ds = ds := by
  unfold pstrip
  rw [dropWhile_id h, dropWhile_id (fun c hc => h c (List.mem_reverse.mp hc)),
    List.reverse_reverse]

theorem isPyWs_false_of_33 {c : Char} (h : 33 ≤ c.toNat) : isPyWs c = false := by
  simp only [isPyWs, Bool.or_eq_false_iff, decide_eq_false_iff_not]
  omega

theorem pstrip_cons_ws {c : Char} (hc : isPyWs c = true) (s : Str) :
    pstrip (c :: s) = pstrip s := by
  unfold pstrip
  rw [List.dropWhile_cons, if_pos hc]

theorem pstrip_append_ws {c : Char} (hc : isPyWs c = true) (s : Str) :
    pstrip (s ++ [c]) = pstrip s := by
  induction s with
  | nil =>
    unfold pstrip
    simp [List.dropWhile_cons, hc]
  | cons a t ih =>
    by_cases ha : isPyWs a = true
    · rw [List.cons_append, pstrip_cons_ws ha, pstrip_cons_ws ha]
      exact ih
    · rw [Bool.not_eq_true] at ha
      unfold pstrip
      rw [List.cons_append, List.dropWhile_cons, if_neg (by simp [ha]),
        List.dropWhile_cons, if_neg (by simp [ha])]
      have hrev : (a :: (t ++ [c])).reverse = c :: (a :: t).reverse := by
        simp
      rw [hrev, List.dropWhile_cons, if_pos hc]

theorem intToStr_ofNat (v : Nat) : intToStr (Int.ofNat v) = natToStr v := by
  unfold intToStr
  rw [if_neg (by rw [Int.ofNat_eq_coe]; omega)]
  simp

theorem rangeCheck_eq (v : Nat) :
    (if (Int.ofNat v : Int) < 0 ∨ (Int.ofNat v : Int) > 255 then
        (Except.error ("Immediate value out of range (0-255): ".toList ++
          intToStr (Int.ofNat v)) : Except Str Nat)
      else .ok (Int.ofNat v).toNat) =
      if v ≤ 255 then .ok v
      else .error ("Immediate value out of range (0-255): ".toList ++ natToStr v) := by
  by_cases hv : v ≤ 255
  · rw [if_neg (by rw [Int.ofNat_eq_coe]; omega), if_pos hv]
    simp
  · rw [if_pos (by rw [Int.ofNat_eq_coe]; omega), if_neg hv, intToStr_ofNat]

theorem lowerChar_of_lt65 {c : Char} (h : c.toNat < 65) : lowerChar c = c := by
  unfold lowerChar
  rw [if_neg (by omega)]

theorem noPfxOfDigits {ds : Str} (hd : ∀ c ∈ ds, isDigitB c = true)
    (p : Char) (hp : 98 ≤ p.toNat) : startsWith ['0', p] (lowerStr ds) = false := by
  rw [← Bool.not_eq_true]
  intro h
  cases ds with
  | nil => simp [lowerStr, startsWith] at h
  | cons d1 t =>
    cases t with
    | nil => simp [lowerStr, startsWith] at h
    | cons d2 t2 =>
      have h2 := hd d2 (by simp)
      simp only [isDigitB, Bool.and_eq_true, decide_eq_true_eq] at h2
      have hl : lowerChar d2 = d2 := lowerChar_of_lt65 (by omega)
      simp only [lowerStr, List.map_cons, startsWith, hl, Bool.and_eq_true,
        decide_eq_true_eq] at h
      have := congrArg Char.toNat h.2.1
      omega

theorem noBinPfxOfBinDigits {ds : Str} (hd : ∀ c ∈ ds, isBinDigitB c = true) :
    ¬(startsWith ['0', 'b'] ds = true ∨ startsWith ['0', 'B'] ds = true) := by
  intro h
  cases ds with
  | nil => simp [startsWith] at h
  | cons d1 t =>
    cases t with
    | nil => simp [startsWith] at h
    | cons d2 t2 =>
      have h2 := hd d2 (by simp)
      simp only [isBinDigitB, Bool.or_eq_true, decide_eq_true_eq] at h2
      rcases h with h | h <;>
        simp only [startsWith, Bool.and_eq_true, decide_eq_true_eq] at h <;>
        rcases h2 with rfl | rfl <;>
        exact absurd h.2.1 (by decide)

theorem parse_immediate_decimal (ds : Str) (hne : ds ≠ [])
    (hd : ∀ c ∈ ds, isDigitB c = true) :
    parse_immediate ds =
      if valOfDigits 10 ds ≤ 255 then .ok (valOfDigits 10 ds)
      else .error ("Immediate value out of range (0-255): ".toList ++
        natToStr (valOfDigits 10 ds)) := by
  have hws : ∀ c ∈ ds, isPyWs c = false := by
    intro c hc
    have := hd c hc
    simp only [isDigitB, Bool.and_eq_true, decide_eq_true_eq] at this
    exact isPyWs_false_of_33 (by omega)
  have hstrip : pstrip ds = ds := pstrip_of_no_ws hws
  have hdv : ∀ c ∈ ds, digitVal 10 c = some (hexVal c) :=
    fun c hc => (digitVal_of_digit (hd c hc)).1
  have h0x := noPfxOfDigits hd 'x' (by decide)
  have h0b := noPfxOfDigits hd 'b' (by decide)
  unfold parse_immediate
  rw [hstrip]
  unfold pyParseImm
  rw [if_neg (by simp [h0x]), if_neg (by simp [h0b])]
  unfold pyInt
  rw [hstrip]
  cases ds with
  | nil => exact absurd rfl hne
  | cons c rest =>
    have hc : isDigitB c = true := hd c (by simp)
    simp only [isDigitB, Bool.and_eq_true, decide_eq_true_eq] at hc
    rw [if_neg (by
      rw [List.head?_cons]
      intro h
      injection h with h2
      rw [h2] at hc
      revert hc
      decide)]
    rw [if_neg (by
      rw [List.head?_cons]
      intro h
      injection h with h2
      rw [h2] at hc
      revert hc
      decide)]
    unfold pyIntUnsigned
    rw [if_neg (by simp), if_neg (by simp)]
    rw [digitsNoLead_eq 10 (c :: rest) (by simp) hdv]
    exact rangeCheck_eq (valOfDigits 10 (c :: rest))

theorem parse_immediate_hexadecimal (x : Char) (hx : x = 'x' ∨ x = 'X') (ds : Str)
    (hne : ds ≠ []) (hd : ∀ c ∈ ds, isHexDigitB c = true) :
    parse_immediate ('0' :: x :: ds) =
      if valOfDigits 16 ds ≤ 255 then .ok (valOfDigits 16 ds)
      else .error ("Immediate value out of range (0-255): ".toList ++
        natToStr (valOfDigits 16 ds)) := by
  have hws : ∀ c ∈ ('0' :: x :: ds), isPyWs c = false := by
    intro c hc
    rcases List.mem_cons.mp hc with rfl | hc2
    · decide
    · rcases List.mem_cons.mp hc2 with rfl | hc3
      · rcases hx with rfl | rfl <;> decide
      · have := hd c hc3
        simp only [isHexDigitB, Bool.or_eq_true, Bool.and_eq_true, decide_eq_true_eq] at this
        apply isPyWs_false_of_33
        rcases this with (⟨h1, _⟩ | ⟨h1, _⟩) | ⟨h1, _⟩ <;> omega
  have hstrip : pstrip ('0' :: x :: ds) = '0' :: x :: ds := pstrip_of_no_ws hws
  have hdv : ∀ c ∈ ds, digitVal 16 c = some (hexVal c) :=
    fun c hc => (digitVal_of_hex (hd c hc)).1
  have hlx : lowerChar x = 'x' := by rcases hx with rfl | rfl <;> decide
  unfold parse_immediate
  rw [hstrip]
  unfold pyParseImm
  rw [if_pos (by simp [lowerStr, startsWith, hlx, (by decide : lowerChar '0' = '0')])]
  unfold pyInt
  rw [hstrip]
  rw [if_neg (by rw [List.head?_cons]; intro h; injection h with h2; exact absurd h2 (by decide))]
  rw [if_neg (by rw [List.head?_cons]; intro h; injection h with h2; exact absurd h2 (by decide))]
  unfold pyIntUnsigned
  rw [if_pos ⟨rfl, by
    rcases hx with rfl | rfl
    · exact Or.inl (by simp [startsWith])
    · exact Or.inr (by simp [startsWith])⟩]
  have hdrop : List.drop 2 ('0' :: x :: ds) = ds := rfl
  rw [hdrop]
  cases ds with
  | nil => exact absurd rfl hne
  | cons c rest =>
    have hcu := hd c (by simp)
    have hcne : ¬(c = '_') := by
      intro h
      rw [h] at hcu
      revert hcu
      decide
    simp only [digitsAfterPfx]
    rw [if_neg hcne, digitsNoLead_eq 16 (c :: rest) (by simp) hdv]
    exact rangeCheck_eq (valOfDigits 16 (c :: rest))

theorem parse_immediate_binary (b : Char) (hb : b = 'b' ∨ b = 'B') (ds : Str)
    (hne : ds ≠ []) (hd : ∀ c ∈ ds, isBinDigitB c = true) :
    parse_immediate ('0' :: b :: ds) =
      if valOfDigits 2 ds ≤ 255 then .ok (valOfDigits 2 ds)
      else .error ("Immediate value out of range (0-255): ".toList ++
        natToStr (valOfDigits 2 ds)) := by
  have hbin : ∀ c ∈ ds, c = '0' ∨ c = '1' := by
    intro c hc
    have := hd c hc
    simpa only [isBinDigitB, Bool.or_eq_true, decide_eq_true_eq] using this
  have hws : ∀ c ∈ ('0' :: b :: ds), isPyWs c = false := by
    intro c hc
    rcases List.mem_cons.mp hc with rfl | hc2
    · decide
    · rcases List.mem_cons.mp hc2 with rfl | hc3
      · rcases hb with rfl | rfl <;> decide
      · rcases hbin c hc3 with rfl | rfl <;> decide
  have hstrip : pstrip ('0' :: b :: ds) = '0' :: b :: ds := pstrip_of_no_ws hws
  have hstrip2 : pstrip ds = ds :=
    pstrip_of_no_ws (fun c hc => by rcases hbin c hc with rfl | rfl <;> decide)
  have hdv : ∀ c ∈ ds, digitVal 2 c = some (hexVal c) :=
    fun c hc => (digitVal_of_bin (hd c hc)).1
  have hlb : lowerChar b = 'b' := by rcases hb with rfl | rfl <;> decide
  unfold parse_immediate
  rw [hstrip]
  unfold pyParseImm
  rw [if_neg (by
    intro h
    simp only [lowerStr, List.map_cons, startsWith, Bool.and_eq_true, decide_eq_true_eq] at h
    rw [hlb] at h
    exact absurd h.2.1 (by decide))]
  rw [if_pos (by simp [lowerStr, startsWith, hlb, (by decide : lowerChar '0' = '0')])]
  have hdrop : List.drop 2 ('0' :: b :: ds) = ds := rfl
  rw [hdrop]
  unfold pyInt
  rw [hstrip2]
  cases ds with
  | nil => exact absurd rfl hne
  | cons c rest =>
    have hplus : ¬((c :: rest).head? = some '+') := by
      rw [List.head?_cons]
      intro h
      injection h with h2
      rcases hbin c (by simp) with rfl | rfl <;> exact absurd h2 (by decide)
    have hminus : ¬((c :: rest).head? = some '-') := by
      rw [List.head?_cons]
      intro h
      injection h with h2
      rcases hbin c (by simp) with rfl | rfl <;> exact absurd h2 (by decide)
    rw [if_neg hplus, if_neg hminus]
    unfold pyIntUnsigned
    rw [if_neg (by simp), if_neg (fun hcon => noBinPfxOfBinDigits hd hcon.2)]
    rw [digitsNoLead_eq 2 _ (by simp) hdv]
    exact rangeCheck_eq _

theorem parse_immediate_ws (s : Str) :
    parse_immediate (' ' :: s) = parse_immediate s ∧
    parse_immediate (s ++ [' ']) = parse_immediate s := by
  constructor
  · unfold parse_immediate
    rw [pstrip_cons_ws (by decide)]
  · unfold parse_immediate
    rw [pstrip_append_ws (by decide)]

/-- C6: `parse_immediate` trims surrounding whitespace, parses decimal by
default, hexadecimal after a "0x"/"0X" prefix and binary after a "0b"/"0B"
prefix (with the Horner value of the digit string), fails with an
OperandError on a malformed numeral, and after successful numeric parsing
fails exactly when the value lies outside [0, 255]; in particular 255 is
accepted and 256 is rejected as out of range. -/
theorem C6_immediate_parsing :
    (∀ ds, ds ≠ [] → (∀ c ∈ ds, isDigitB c = true) →
      parse_immediate ds =
        if valOfDigits 10 ds ≤ 255 then .ok (valOfDigits 10 ds)
        else .error ("Immediate value out of range (0-255): ".toList ++
          natToStr (valOfDigits 10 ds))) ∧
    (∀ x, (x = 'x' ∨ x = 'X') → ∀ ds, ds ≠ [] → (∀ c ∈ ds, isHexDigitB c = true) →
      parse_immediate ('0' :: x :: ds) =
        if valOfDigits 16 ds ≤ 255 then .ok (valOfDigits 16 ds)
        else .error ("Immediate value out of range (0-255): ".toList ++
          natToStr (valOfDigits 16 ds))) ∧
    (∀ b, (b = 'b' ∨ b = 'B') → ∀ ds, ds ≠ [] → (∀ c ∈ ds, isBinDigitB c = true) →
      parse_immediate ('0' :: b :: ds) =
        if valOfDigits 2 ds ≤ 255 then .ok (valOfDigits 2 ds)
        else .error ("Immediate value out of range (0-255): ".toList ++
          natToStr (valOfDigits 2 ds))) ∧
    (∀ s, parse_immediate (' ' :: s) = parse_immediate s ∧
      parse_immediate (s ++ [' ']) = parse_immediate s) ∧
    parse_immediate "255".toList = .ok 255 ∧
    parse_immediate "256".toList =
      .error "Immediate value out of range (0-255): 256".toList ∧
    parse_immediate "0xFF".toList = .ok 255 ∧
    parse_immediate "0B101".toList = .ok 5 ∧
    parse_immediate "0x100".toList =
      .error "Immediate value out of range (0-255): 256".toList ∧
    parse_immediate "abc".toList = .error "Invalid immediate value: abc".toList :=
  ⟨parse_immediate_decimal,
   fun x hx => parse_immediate_hexadecimal x hx,
   fun b hb => parse_immediate_binary b hb,
   parse_immediate_ws,
   by decide, by decide, by decide, by decide, by decide, by decide⟩

/-- Witness for C6 at the decimal token "7". -/
theorem C6_immediate_parsing_witness : parse_immediate "7".toList = .ok 7 := by
  rw [C6_immediate_parsing.1 "7".toList (by decide) (by decide)]
  decide

/-- C7 counterexample: a line with MORE operand tokens than its format
requires does not fail — `ADD R0 R1 R2` encodes as if the extra `R2` were
absent, and `NOP R0` encodes as plain `NOP` — so an operand-count mismatch
by excess is not reported. -/
theorem C7_counterexample :
    parse_line "ADD R0 R1 R2".toList 1 = .ok 0x1100 ∧
    parse_line "NOP R0".toList 1 = .ok 0x0000 := by
  exact ⟨by decide, by decide⟩

/-- C7 (amended): for a known mnemonic, the encoder checks only a MINIMUM
operand count: with fewer tokens than the format requires it fails with a
SyntaxError naming the mnemonic and the required operand pattern, but any
tokens beyond the required ones are ignored — the result depends only on
the first `requiredCount` operand tokens. -/
theorem C7_operand_count :
    (∀ p0 rest op, OPCODES (upperStr p0) = some op →
      ∀ ty, INSTR_TYPES (upperStr p0) = some ty →
        (rest.length < requiredCount ty →
          parseParts (p0 :: rest) = .error (upperStr p0 ++ requiresMsg ty)) ∧
        parseParts (p0 :: rest) = parseParts (p0 :: rest.take (requiredCount ty))) ∧
    parse_line "ADD R0 R1 R2".toList 1 = parse_line "ADD R0 R1".toList 1 := by
  refine ⟨?_, by decide⟩
  intro p0 rest op hop ty hty
  constructor
  · intro hlen
    cases ty <;> simp only [requiredCount] at hlen
    case tnone => omega
    case treg =>
      cases rest with
      | nil => simp [parseParts, hop, hty, requiresMsg]
      | cons a t => simp at hlen
    case treg_reg =>
      cases rest with
      | nil => simp [parseParts, hop, hty, requiresMsg]
      | cons a t =>
        cases t with
        | nil => simp [parseParts, hop, hty, requiresMsg]
        | cons b t2 => simp at hlen; omega
    case treg_imm =>
      cases rest with
      | nil => simp [parseParts, hop, hty, requiresMsg]
      | cons a t =>
        cases t with
        | nil => simp [parseParts, hop, hty, requiresMsg]
        | cons b t2 => simp at hlen; omega
    case treg_regaddr =>
      cases rest with
      | nil => simp [parseParts, hop, hty, requiresMsg]
      | cons a t =>
        cases t with
        | nil => simp [parseParts, hop, hty, requiresMsg]
        | cons b t2 => simp at hlen; omega
    case timm =>
      cases rest with
      | nil => simp [parseParts, hop, hty, requiresMsg]
      | cons a t => simp at hlen
  · cases ty <;>
      cases rest with
      | nil => rfl
      | cons a t =>
        cases t with
        | nil => simp [parseParts, hop, hty, requiredCount]
        | cons b t2 => simp [parseParts, hop, hty, requiredCount]

/-- Witness for C7: `ADD` with a single operand token fails naming the
mnemonic and the two-register pattern. -/
theorem C7_operand_count_witness :
    parseParts ["ADD".toList, "R0".toList] =
      .error (upperStr "ADD".toList ++ requiresMsg .treg_reg) :=
  ((C7_operand_count.1 "ADD".toList ["R0".toList] 1 (by decide) .treg_reg (by decide)).1
    (by decide))

theorem padGo_eq (f : Nat) (ls : List Str) (h : 8 - ls.length ≤ f) :
    padGo f ls = ls ++ List.replicate (8 - ls.length) ("0000".toList) := by
  induction f generalizing ls with
  | zero =>
    simp only [padGo]
    rw [Nat.sub_eq_zero_of_le (by omega)]
    simp
  | succ f ih =>
    by_cases hl : ls.length < 8
    · rw [padGo, if_pos hl, ih (ls ++ _) (by simp; omega)]
      rw [List.append_assoc]
      congr 1
      simp only [List.length_append, List.length_cons, List.length_nil]
      rw [List.singleton_append, ← List.replicate_succ]
      congr 1
      omega
    · rw [padGo, if_neg hl]
      rw [Nat.sub_eq_zero_of_le (by omega)]
      simp

theorem hexDigitChar_upHex {n : Nat} (h : n < 16) :
    isUpHexDigit (hexDigitChar n) = true := by
  interval_cases n <;> decide

theorem natToHexAux_chars (f : Nat) :
    ∀ n, ∀ c ∈ natToHexAux f n, isUpHexDigit c = true := by
  induction f with
  | zero =>
    intro n c hc
    simp [natToHexAux] at hc
  | succ f ih =>
    intro n c hc
    by_cases h : n < 16
    · rw [natToHexAux, if_pos h] at hc
      simp at hc
      subst hc
      exact hexDigitChar_upHex h
    · rw [natToHexAux, if_neg h] at hc
      rcases List.mem_append.mp hc with h1 | h2
      · exact ih _ c h1
      · simp at h2
        subst h2
        exact hexDigitChar_upHex (Nat.mod_lt _ (by omega))

theorem natToHexAux_len (f : Nat) :
    ∀ n k, n < f → 0 < k → n < 16 ^ k → (natToHexAux f n).length ≤ k := by
  induction f with
  | zero => intro n k hf _ _; omega
  | succ f ih =>
    intro n k hf hk hpow
    by_cases h : n < 16
    · rw [natToHexAux, if_pos h]
      simpa using hk
    · rw [natToHexAux, if_neg h]
      have hk2 : 2 ≤ k := by
        rcases Nat.lt_or_ge k 2 with hlt | hge
        · interval_cases k
          omega
        · exact hge
      have hdiv : n / 16 < 16 ^ (k - 1) := by
        rw [Nat.div_lt_iff_lt_mul (by omega)]
        calc n < 16 ^ k := hpow
          _ = 16 ^ (k - 1) * 16 := by
            rw [← Nat.pow_succ]
            congr 1
            omega
      have := ih (n / 16) (k - 1) (by omega) (by omega) hdiv
      simp only [List.length_append, List.length_cons, List.length_nil]
      omega

theorem fmt04X_len {w : Nat} (h : w < 65536) : (fmt04X w).length = 4 := by
  have hlen : (natToHexU w).length ≤ 4 :=
    natToHexAux_len (w + 1) w 4 (by omega) (by omega) (by norm_num; omega)
  unfold fmt04X
  simp only [List.length_append, List.length_replicate]
  omega

theorem fmt04X_chars {w : Nat} : ∀ c ∈ fmt04X w, isUpHexDigit c = true := by
  intro c hc
  unfold fmt04X at hc
  rcases List.mem_append.mp hc with h | h
  · rw [List.eq_of_mem_replicate h]
    decide
  · exact natToHexAux_chars (w + 1) w c h

/-- C8: for every list of 16-bit code words, the memory image is the
newline-join of one 4-character uppercase-hexadecimal line per word in
program order, followed by exactly enough `"0000"` NOP lines to bring the
line count to `max 8 (program length)`; in particular a 3-instruction
program yields an 8-line image whose last 5 lines are `"0000"`. -/
theorem C8_memory_image :
    (∀ program : List Nat, (∀ w ∈ program, w < 65536) →
      to_hex_file program =
        joinNl (program.map fmt04X ++
          List.replicate (8 - program.length) ("0000".toList)) ∧
      (program.map fmt04X ++
        List.replicate (8 - program.length) ("0000".toList)).length
          = max 8 program.length ∧
      (∀ w ∈ program, (fmt04X w).length = 4 ∧
        ∀ c ∈ fmt04X w, isUpHexDigit c = true)) ∧
    to_hex_file [0x9005, 0x9403, 0x1100] =
      "9005\n9403\n1100\n0000\n0000\n0000\n0000\n0000".toList := by
  refine ⟨?_, by decide⟩
  intro program hw
  refine ⟨?_, ?_, ?_⟩
  · unfold to_hex_file padTo8
    rw [padGo_eq 8 _ (by omega), List.length_map]
  · simp only [List.length_append, List.length_map, List.length_replicate]
    omega
  · intro w hmem
    exact ⟨fmt04X_len (hw w hmem), fmt04X_chars⟩

/-- Witness for C8 at the one-instruction program `[0x9005]`. -/
theorem C8_memory_image_witness :
    to_hex_file [36869] =
      joinNl ([36869].map fmt04X ++
        List.replicate (8 - [36869].length) ("0000".toList)) :=
  (C8_memory_image.1 [36869] (by decide)).1

theorem splitChar_ne_nil (sep : Char) (s : Str) : splitChar sep s ≠ [] := by
  cases s with
  | nil => simp [splitChar]
  | cons c rest =>
    simp only [splitChar]
    rcases hs : splitChar sep rest with _ | ⟨p, ps⟩
    · simp
    · by_cases hc : c = sep <;> simp [hc]

theorem splitChar_no_sep {sep : Char} {l : Str} (h : sep ∉ l) : splitChar sep l = [l] := by
  induction l with
  | nil => rfl
  | cons c t ih =>
    have hcs : ¬(c = sep) := fun hc => h (by simp [hc])
    simp only [splitChar]
    rw [ih (fun hm => h (by simp [hm]))]
    simp [hcs]

theorem splitChar_append_sep {sep : Char} {l : Str} (t : Str) (h : sep ∉ l) :
    splitChar sep (l ++ sep :: t) = l :: splitChar sep t := by
  induction l with
  | nil =>
    rcases hs : splitChar sep t with _ | ⟨p, ps⟩
    · exact absurd hs (splitChar_ne_nil sep t)
    · simp only [List.nil_append, splitChar]
      rw [hs]
      simp
  | cons c cl ih =>
    have hcs : ¬(c = sep) := fun hc => h (by simp [hc])
    simp only [List.cons_append, splitChar, List.append_eq]
    rw [ih (fun hm => h (by simp [hm]))]
    simp [hcs]

theorem splitChar_joinNl (ls : List Str) (hne : ls ≠ [])
    (h : ∀ l ∈ ls, '\n' ∉ l) : splitChar '\n' (joinNl ls) = ls := by
  induction ls with
  | nil => exact absurd rfl hne
  | cons l rest ih =>
    cases rest with
    | nil => exact splitChar_no_sep (h l (by simp))
    | cons l2 rest2 =>
      simp only [joinNl]
      rw [splitChar_append_sep _ (h l (by simp)),
        ih (by simp) (fun x hx => h x (by simp [hx]))]

theorem no_newline_in_fmt04X (w : Nat) : '\n' ∉ fmt04X w := by
  intro hmem
  have := fmt04X_chars '\n' hmem
  revert this
  decide

theorem programHex_eq (program : List Nat) :
    programHex program =
      program.map fmt04X ++ List.replicate (8 - program.length) ("0000".toList) := by
  unfold programHex to_hex_file padTo8
  rw [padGo_eq 8 _ (by omega), List.length_map]
  apply splitChar_joinNl
  · intro hemp
    have := congrArg List.length hemp
    simp only [List.length_append, List.length_map, List.length_replicate,
      List.length_nil] at this
    omega
  · intro l hl
    rcases List.mem_append.mp hl with hm | hm
    · obtain ⟨w, _, rfl⟩ := List.mem_map.mp hm
      exact no_newline_in_fmt04X w
    · rw [List.eq_of_mem_replicate hm]
      decide

/-- C10: in a successful `/simulate` response, the `programHex` field is the
NOP-padded memory image split on newlines, so its length is
`max 8 (number of instructions)` — not one entry per instruction — and for
programs shorter than 8 instructions every entry at an index at or beyond
the program length is the padding line `"0000"`, corresponding to no entry
of the `program` field. -/
theorem C10_programHex :
    ∀ program i, program.length ≤ i → i < max 8 program.length →
      (programHex program).length = max 8 program.length ∧
      (programHex program).getD i [] = "0000".toList := by
  intro program i h1 h2
  rw [programHex_eq]
  constructor
  · simp only [List.length_append, List.length_map, List.length_replicate]
    omega
  · rw [List.getD_eq_getElem?_getD,
      List.getElem?_append_right (by simp only [List.length_map]; omega)]
    simp only [List.length_map, List.getElem?_replicate]
    rw [if_pos (by omega)]
    rfl

/-- Witness for C10 at a 3-instruction program and padding index 5. -/
theorem C10_programHex_witness :
    (programHex [36869, 37891, 4352]).length = max 8 [36869, 37891, 4352].length ∧
    (programHex [36869, 37891, 4352]).getD 5 [] = "0000".toList :=
  C10_programHex [36869, 37891, 4352] 5 (by decide) (by decide)

theorem assembleGo_all_blank (i : Nat) (ls : List Str)
    (h : ∀ l ∈ ls, processedLine l = []) : assembleGo i ls = ([], []) := by
  induction ls generalizing i with
  | nil => rfl
  | cons l rest ih =>
    simp only [assembleGo, ih (i + 1) (fun x hx => h x (by simp [hx])),
      h l (by simp)]
    simp

/-- C9: `assemble` reports success exactly when its error list is empty, and
success does not require a non-empty program: a source all of whose lines
are blank or comment-only assembles successfully with an empty program and
no errors, yet the `/simulate` endpoint rejects that empty program with the
"No instructions in program" error before the hex image is built or any
external tool is invoked. -/
theorem C9_success_iff_no_errors :
    (∀ text : Str, (assemble text).success = true ↔ (assemble text).errors = []) ∧
    (∀ text : Str, (∀ l ∈ splitChar '\n' text, processedLine l = []) →
      assemble text = ⟨true, [], []⟩ ∧ simulateGate text = .noInstructions) := by
  constructor
  · intro text
    simp [assemble]
  · intro text h
    have hasm : assemble text = ⟨true, [], []⟩ := by
      unfold assemble
      rw [assembleGo_all_blank 1 _ h]
      rfl
    refine ⟨hasm, ?_⟩
    unfold simulateGate
    rw [hasm]
    rfl

/-- Witness for C9 at a comment-and-blank-only source. -/
theorem C9_success_iff_no_errors_witness :
    assemble "; comment only\n\n   ; another".toList = ⟨true, [], []⟩ ∧
    simulateGate "; comment only\n\n   ; another".toList = .noInstructions :=
  C9_success_iff_no_errors.2 "; comment only\n\n   ; another".toList (by decide)

end CPU8
